import Mathlib

/-!
Verification of the Netto receipt extraction engine
(repository pricetracker_gas, function extractNettoReceiptData and its
split-out helpers extractStoreAndPurchaseString, extractStoreAddress,
extractLineItems, extractLineItemsArray).

The JavaScript source works on strings with String.prototype.split,
trim, replace, slice, join and four regular expressions evaluated by
String.prototype.match.  We embed strings as List Char.  The four
regular expressions are concatenations of literal strings and of
single-character classes under greedy or lazy quantifiers, so their
JavaScript backtracking semantics (leftmost match; greedy quantifiers
try longest first, lazy ones shortest first) is embedded by the small
engine below (greedyScan, lazyCapStar, lazyCapPlus, firstMatch).
JavaScript numbers are embedded as exact rationals: every value the
code parses has the form D.DD, which float64 represents closely enough
that equality and two-decimal reformatting agree with the exact
rational on all realistic receipt amounts.
-/

set_option maxRecDepth 100000

namespace Netto

/-- The character class of the regexp dot without the s flag: any char
except the JavaScript line terminators. -/
def isDot (c : Char) : Bool :=
  !(c = '\n' || c = '\r' || c = '\u2028' || c = '\u2029')

/-- JavaScript whitespace as trimmed by String.prototype.trim
(the characters that can actually occur in receipt lines). -/
def isJsSpace (c : Char) : Bool :=
  c = ' ' || c = '\t' || c = '\n' || c = '\r' || c = '\u000b' ||
  c = '\u000c' || c = '\u00a0' || c = '\ufeff' || c = '\u2028' || c = '\u2029'

/-- Embedding of String.prototype.trim. -/
def jsTrim (l : List Char) : List Char :=
  ((l.dropWhile isJsSpace).reverse.dropWhile isJsSpace).reverse

/-- If the first list is a prefix of the second, return the rest. -/
def stripPfx : List Char → List Char → Option (List Char)
  | [], s => some s
  | _ :: _, [] => none
  | p :: ps, c :: cs => if p = c then stripPfx ps cs else none

/-- Boolean prefix test, via stripPfx. -/
def hasPfx (p s : List Char) : Bool := (stripPfx p s).isSome

/-- Embedding of String.prototype.replace with a string pattern:
replace only the first occurrence. -/
def jsReplaceFirst (pat repl : List Char) : List Char → List Char
  | [] => match stripPfx pat [] with
          | some r => repl ++ r
          | none => []
  | c :: cs => match stripPfx pat (c :: cs) with
          | some r => repl ++ r
          | none => c :: jsReplaceFirst pat repl cs

/-- All suffixes of a list, the list itself first. -/
def sfx : List Char → List (List Char)
  | [] => [[]]
  | c :: cs => (c :: cs) :: sfx cs

/-- Does pat occur as a contiguous substring? -/
def occursB (pat : List Char) : List Char → Bool
  | [] => hasPfx pat []
  | c :: cs => hasPfx pat (c :: cs) || occursB pat cs

/-- Embedding of String.prototype.split with a nonempty string
separator: cut at every leftmost non-overlapping occurrence.  The
accumulator holds the current piece reversed.  The fuel argument makes
the recursion structural (so that the kernel can evaluate it); it is
called with the input length, which suffices because a nonempty
separator consumes at least one character per cut. -/
def jsSplitF (sep : List Char) : Nat → List Char → List Char → List (List Char)
  | _, acc, [] => [acc.reverse]
  | 0, acc, _ :: _ => [acc.reverse]
  | fuel + 1, acc, c :: cs =>
    if hasPfx sep (c :: cs) then
      acc.reverse :: jsSplitF sep fuel [] ((c :: cs).drop sep.length)
    else
      jsSplitF sep fuel (c :: acc) cs

/-- JavaScript split.  For the empty separator JavaScript splits into
single characters; the source only ever splits on nonempty literal
markers, so that case is irrelevant and mapped to the identity. -/
def jsSplit (sep l : List Char) : List (List Char) :=
  match sep with
  | [] => [l]
  | _ :: _ => jsSplitF sep l.length [] l

/-! ## The backtracking regexp engine

Each of the four regexps of the source has the shape
literal-prefix, quantified dot, literal, capture-body, literal-suffix.
greedyScan tries every split of its input into a block of p-characters
followed by a rest, longest block first, exactly like a greedy
quantifier over a single-character class; the continuation receives
the rest and plays the part of the pattern after the quantifier. -/

def greedyScan (p : Char → Bool) (cont : List Char → Option α) : List Char → Option α
  | [] => cont []
  | c :: cs =>
    if p c then
      (greedyScan p cont cs).orElse (fun _ => cont (c :: cs))
    else cont (c :: cs)

/-- Lazy star over the dot class followed by the literal suf: shortest
capture first, as the regexp (.*?) followed by suf. -/
def lazyCapStar (suf : List Char) : List Char → Option (List Char)
  | [] => if hasPfx suf [] then some [] else none
  | c :: cs =>
    if hasPfx suf (c :: cs) then some []
    else if isDot c then (lazyCapStar suf cs).map (fun l => c :: l)
    else none

/-- Lazy plus over the dot class followed by suf, as (.+?) suf. -/
def lazyCapPlus (suf : List Char) : List Char → Option (List Char)
  | [] => none
  | c :: cs =>
    if isDot c then (lazyCapStar suf cs).map (fun l => c :: l) else none

/-- Leftmost match: try every start position left to right, as
String.prototype.match does for a regexp without the g flag. -/
def firstMatch (f : List Char → Option α) : List Char → Option α
  | [] => f []
  | c :: cs => (f (c :: cs)).orElse (fun _ => firstMatch f cs)

/-- The literal mid expected right after the greedy gap, then the rest
of the pattern. -/
def afterMid (mid : List Char) (k : List Char → Option α) (u : List Char) : Option α :=
  match stripPfx mid u with
  | some v => k v
  | none => none

/-- Match at one start position a pattern pre .+ cont  (the gap is the
greedy one-or-more dots of the source regexps). -/
def matchPlusAt (pre : List Char) (cont : List Char → Option α) (s : List Char) : Option α :=
  match stripPfx pre s with
  | none => none
  | some [] => none
  | some (c :: cs) => if isDot c then greedyScan isDot cont cs else none

/-- Match at one start position a pattern pre .* cont. -/
def matchStarAt (pre : List Char) (cont : List Char → Option α) (s : List Char) : Option α :=
  match stripPfx pre s with
  | none => none
  | some t => greedyScan isDot cont t

/-! ## The four regexps of extractLineItems -/

def preItem : List Char := "<td style=\"font-size:".data
def prePrice : List Char := "<td style=\"text-align:right;".data
def preDivider : List Char := "<hr ".data
def sufTd : List Char := "</td>".data
def sufPrice : List Char := "&nbsp;</td>".data
def nbsp4 : List Char := "&nbsp;&nbsp;&nbsp;&nbsp;".data
def midDetails : List Char := ">&nbsp;&nbsp;&nbsp;&nbsp;".data
def midDivider : List Char := "/></td>".data

/-- The capture (\d+,\d\d) followed by the literal suffix of the price
regexp.  The greedy \d+ is deterministic here: if fewer than the
maximal run of digits were taken, the next input char would be a digit
and could not match the comma, so only the maximal run can succeed. -/
def priceCapSuf (v : List Char) : Option (List Char) :=
  match v.takeWhile Char.isDigit, v.dropWhile Char.isDigit with
  | [], _ => none
  | ds, ',' :: d1 :: d2 :: r =>
    if d1.isDigit && d2.isDigit && hasPfx sufPrice r then
      some (ds ++ ',' :: d1 :: d2 :: []) else none
  | _, _ => none

/-- itemRegex of the source: first capture group of
 td style="font-size: .+ > (.+?) /td  on the line, none if no match. -/
def itemCapture (line : List Char) : Option (List Char) :=
  firstMatch (matchPlusAt preItem (afterMid ['>'] (lazyCapPlus sufTd))) line

/-- priceRegex of the source: first capture group of
 td style="text-align:right; .+ > (\d+,\d\d) nbsp /td. -/
def priceCapture (line : List Char) : Option (List Char) :=
  firstMatch (matchPlusAt prePrice (afterMid ['>'] priceCapSuf)) line

/-- itemDetailsRegex of the source: first capture group of
 td style="font-size: .+ > nbsp nbsp nbsp nbsp (.*?) /td. -/
def detailsCapture (line : List Char) : Option (List Char) :=
  firstMatch (matchPlusAt preItem (afterMid midDetails (lazyCapStar sufTd))) line

/-- rowDividerRegex of the source:  hr .* /> /td  as a boolean test. -/
def dividerTest (line : List Char) : Bool :=
  (firstMatch (matchStarAt preDivider (afterMid midDivider (fun r => some r))) line).isSome

/-! ## Numbers

parseFloat is embedded as an exact rational; the only strings it is
applied to have the shape digits dot digit digit, produced by the
price capture after the comma-to-point replace. -/

def charVal (c : Char) : Nat := c.toNat - '0'.toNat

/-- Numeric value of a big-endian digit string. -/
def digitsVal (l : List Char) : Nat := l.foldl (fun n c => 10 * n + charVal c) 0

/-- The exact decimal value of the numeric literal parseFloat reads:
leading digits, then optionally a point and fractional digits.  The
value ip + fd / 10 ^ k is built as the single fraction
(ip * 10 ^ k + fd) / 10 ^ k so that only core rational operations are
involved and the kernel can evaluate it.  The program stores the
binary64 double of this value, fl64 of it (defined below); the scanner
state keeps the exact value, which determines the double uniquely, and
the price round-trip claim, the one whose truth depends on binary64
rounding, composes fl64 explicitly. -/
def jsParseFloat (l : List Char) : ℚ :=
  let ip := l.takeWhile Char.isDigit
  match l.dropWhile Char.isDigit with
  | '.' :: fr =>
    let fd := fr.takeWhile Char.isDigit
    mkRat ((digitsVal ip * 10 ^ fd.length + digitsVal fd : Nat) : Int) (10 ^ fd.length)
  | _ => mkRat ((digitsVal ip : Nat) : Int) 1

def digitChar (d : Nat) : Char := Char.ofNat ('0'.toNat + d)

/-- Little-endian decimal digits with explicit fuel, so that the
recursion is structural and the kernel can evaluate it.  Agrees with
Nat.digits 10 whenever the fuel covers the number. -/
def natToDigitsRev : Nat → Nat → List Nat
  | 0, _ => []
  | fuel + 1, n => if n = 0 then [] else n % 10 :: natToDigitsRev fuel (n / 10)

/-- Canonical decimal rendering of a natural number. -/
def natRender (n : Nat) : List Char :=
  if n = 0 then ['0'] else ((natToDigitsRev n n).map digitChar).reverse

/-- Embedding of Number.prototype.toFixed with argument 2 on a
nonnegative double below 10 ^ 21 (above that threshold toFixed falls
back to exponential notation, unreachable in this development): per
its specification, the integer nearest to 100 times the exact value of
the double, the larger one on ties, rendered as digits with a point.
Mathlib round is exactly that tie rule on nonnegative values.  In the
round-trip claim it is applied to the fl64-rounded parse result, as
the program does. -/
def toFixed2 (q : ℚ) : List Char :=
  let c := (round (q * 100)).toNat
  natRender (c / 100) ++ '.' :: [digitChar (c % 100 / 10), digitChar (c % 100 % 10)]

/-- Round a rational to the nearest integer, ties to even: the IEEE
754 rounding used by binary64 arithmetic. -/
def rne (x : ℚ) : ℤ :=
  if x - ⌊x⌋ < 1 / 2 then ⌊x⌋
  else if 1 / 2 < x - ⌊x⌋ then ⌊x⌋ + 1
  else if ⌊x⌋ % 2 = 0 then ⌊x⌋ else ⌊x⌋ + 1

/-- Rounding to binary64: scale the value into the 53-bit significand
range using its binary magnitude, round to nearest with ties to even,
and scale back.  This is the exact parseFloat result on every positive
value in the normal range of binary64 (and on zero); negative values,
subnormals (below 2 ^ -1022) and overflow to infinity (at 2 ^ 1024)
are unreachable from the nonnegative bounded prices this development
evaluates, and are not modelled. -/
def fl64 (q : ℚ) : ℚ :=
  if q = 0 then 0
  else ((rne (q * (2 : ℚ) ^ (52 - Int.log 2 q)) : ℤ) : ℚ) * (2 : ℚ) ^ (Int.log 2 q - 52)

/-! ## The line-item scanner -/

/-- A line item record; a JavaScript number field is an exact rational
here. -/
structure LineItem where
  description : Option String
  totalPrice : Option ℚ
  details : Option String
deriving DecidableEq, Repr

def emptyItem : LineItem := ⟨none, none, none⟩

/-- Truthiness of an optional string field, as tested by the flush
condition of the source: null and the empty string are falsy. -/
def truthyS : Option String → Bool
  | none => false
  | some s => !(s = "")

/-- Truthiness of the price field: null and 0 are falsy. -/
def truthyQ : Option ℚ → Bool
  | none => false
  | some q => !(q = 0)

/-- The flush condition of the source:
 currentLineItem.description or currentLineItem.totalPrice or
 currentLineItem.details  under JavaScript truthiness. -/
def hasData (it : LineItem) : Bool :=
  truthyS it.description || truthyQ it.totalPrice || truthyS it.details

/-- The mutable state of the scanning loop. -/
structure ScanState where
  items : List LineItem
  cur : LineItem
  searchItem : Bool
  searchPrice : Bool
  searchDetail : Bool
deriving DecidableEq, Repr

def initState : ScanState := ⟨[], emptyItem, false, false, false⟩

/-- One iteration of the scanning loop of extractLineItems, line by
line: divider first (flush and reset), then the three field searches
gated by their flags, each successful match advancing the flags as the
source does. -/
def stepLine (st : ScanState) (line : List Char) : ScanState :=
  if dividerTest line then
    { items := st.items ++ (if hasData st.cur then [st.cur] else []),
      cur := emptyItem, searchItem := true, searchPrice := false, searchDetail := false }
  else
    match (if st.searchItem then itemCapture line else none) with
    | some cap =>
      { st with cur := { st.cur with description := some (String.mk (jsTrim cap)) },
                searchItem := false, searchPrice := true }
    | none =>
      match (if st.searchPrice then priceCapture line else none) with
      | some cap =>
        { st with cur := { st.cur with
                    totalPrice := some (jsParseFloat (jsReplaceFirst [','] ['.'] (jsTrim cap))) },
                  searchPrice := false, searchDetail := true }
      | none =>
        match (if st.searchDetail then detailsCapture line else none) with
        | some cap =>
          { st with cur := { st.cur with details := some (String.mk (jsTrim cap)) },
                    searchDetail := false }
        | none => st

/-- After the loop the source pushes the last item if it has data. -/
def finishScan (st : ScanState) : List LineItem :=
  st.items ++ (if hasData st.cur then [st.cur] else [])

/-- extractLineItems on an already filtered list of lines. -/
def extractLineItemsL (lines : List (List Char)) : List LineItem :=
  finishScan (List.foldl stepLine initState lines)

/-- The line filter extractLineItemsArray: split the raw block on
newlines and drop the five structural noise lines. -/
def removeSet : List (List Char) :=
  [[], "<tr>".data, "</tr>".data, "<td>&nbsp;</td>".data, "<td></td>".data]

def lineKeep (l : List Char) : Bool := !(removeSet.contains (jsTrim l))

def extractLineItemsArray (raw : List Char) : List (List Char) :=
  (jsSplit ['\n'] raw).filter lineKeep

/-- extractLineItems of the source on the raw line-items block. -/
def extractLineItems (raw : List Char) : List LineItem :=
  extractLineItemsL (extractLineItemsArray raw)

/-! ## The segmenter and the address extractor -/

/-- emailBody.split(startString)[1]: undefined (none) when the start
marker does not occur. -/
def segRemainder (body s : List Char) : Option (List Char) :=
  (jsSplit s body).get? 1

/-- remainder.split(endString)[0]: element 0 of a split always exists,
so this is total. -/
def segSpan (r e : List Char) : List Char :=
  (jsSplit e r).headI

/-- extractStoreAndPurchaseString: the raw address half and, when the
middle marker occurs in the span, the raw line-items half.  A none
result is the thrown TypeError of the source (split called on
undefined); a some (a, none) result is the source returning an object
whose lineItemsRaw member is undefined, which makes the later
lineItemsRaw.split call throw. -/
def extractStoreAndPurchaseString (body s m e : List Char) :
    Option (List Char × Option (List Char)) :=
  (segRemainder body s).map (fun r =>
    let arr := jsSplit m (segSpan r e)
    (arr.headI, arr.get? 1))

/-- extractStoreAddress: split on newlines, slice(1,3), strip the
first br marker, trim, join with comma-space. -/
def extractStoreAddress (raw : List Char) : String :=
  let arr := ((jsSplit ['\n'] raw).drop 1).take 2
  let cleaned := arr.map (fun l => String.mk (jsTrim (jsReplaceFirst "<br>".data [] l)))
  String.intercalate ", " cleaned

/-! ## Sample lines used by concrete theorems -/

def sampleDivider : List Char := "<tr><td colspan=\"2\"><hr /></td></tr>".data
def sampleDesc : List Char := "<td style=\"font-size:12px;\">Milch 3.5%</td>".data
def sampleEmptyDesc : List Char := "<td style=\"font-size:x> </td>".data

/-- A raw line-items block holding one item block: a divider, the
description line, the price line and the details line (plus one
structural tr line removed by the filter). -/
def milkRaw : List Char :=
  ("<tr>\n<tr><td colspan=\"2\"><hr /></td></tr>\n" ++
   "<td style=\"font-size:12px;\">Milch 3.5%</td>\n" ++
   "<td style=\"text-align:right;\">1,29&nbsp;</td>\n" ++
   "<td style=\"font-size:10px;\">&nbsp;&nbsp;&nbsp;&nbsp;1 Liter</td>").data

/-- A details-formatted line whose cell text itself holds a greater
sign after the four nbsp entities. -/
def sampleGtDetails : List Char :=
  "<td style=\"font-size:1\">&nbsp;&nbsp;&nbsp;&nbsp;a>b</td>".data

/-- The sample details line of the receipts. -/
def sampleDetails : List Char :=
  "<td style=\"font-size:10px;\">&nbsp;&nbsp;&nbsp;&nbsp;1 Liter</td>".data

/-- The four nbsp entities without their leading ampersand. -/
def nbspTail : List Char := "nbsp;&nbsp;&nbsp;&nbsp;".data

/-- A scanner state holding an item with only its description set. -/
def witState : ScanState := ⟨[], ⟨some "Brot", none, none⟩, false, true, false⟩

/-! ## Structural lemmas about one scanning step -/

theorem stepLine_of_div (st : ScanState) (l : List Char) (h : dividerTest l = true) :
    stepLine st l =
      ⟨st.items ++ (if hasData st.cur then [st.cur] else []),
       emptyItem, true, false, false⟩ := by
  simp [stepLine, h]

theorem stepLine_items_of_not_div (st : ScanState) (l : List Char)
    (h : dividerTest l = false) : (stepLine st l).items = st.items := by
  unfold stepLine
  simp only [h, Bool.false_eq_true, if_false]
  split
  · rfl
  · split
    · rfl
    · split
      · rfl
      · rfl

theorem stepLine_items_cases (st : ScanState) (l : List Char) :
    (stepLine st l).items = st.items ∨ (stepLine st l).items = st.items ++ [st.cur] := by
  by_cases h : dividerTest l
  · rw [stepLine_of_div st l h]
    by_cases h2 : hasData st.cur
    · right; simp [h2]
    · left; simp [h2]
  · left; exact stepLine_items_of_not_div st l (by simpa using h)

theorem stepLine_init_of_not_div (l : List Char) (h : dividerTest l = false) :
    stepLine initState l = initState := by
  unfold stepLine initState
  simp only [h, Bool.false_eq_true, if_false]

theorem foldl_init_of_no_div (pre : List (List Char))
    (h : ∀ l ∈ pre, dividerTest l = false) :
    List.foldl stepLine initState pre = initState := by
  induction pre with
  | nil => rfl
  | cons l ls ih =>
    rw [List.foldl_cons, stepLine_init_of_not_div l (h l (List.mem_cons_self l ls))]
    exact ih (fun x hx => h x (List.mem_cons_of_mem l hx))

theorem foldl_items_length (lines : List (List Char)) :
    ∀ st : ScanState,
      ((List.foldl stepLine st lines).items).length ≤
        st.items.length + lines.countP dividerTest := by
  induction lines with
  | nil => intro st; simp
  | cons l ls ih =>
    intro st
    rw [List.foldl_cons, List.countP_cons]
    by_cases h : dividerTest l
    · rw [stepLine_of_div st l h]
      refine (ih _).trans ?_
      by_cases h2 : hasData st.cur <;> (simp [h, h2]; try omega)
    · have hne : dividerTest l = false := by simpa using h
      refine (ih _).trans ?_
      rw [stepLine_items_of_not_div st l hne]
      simp [hne]

theorem foldl_items_hasData (lines : List (List Char)) :
    ∀ st : ScanState, (∀ it ∈ st.items, hasData it = true) →
      ∀ it ∈ (List.foldl stepLine st lines).items, hasData it = true := by
  induction lines with
  | nil => intro st h; exact h
  | cons l ls ih =>
    intro st h
    rw [List.foldl_cons]
    refine ih (stepLine st l) ?_
    intro it hit
    by_cases hd : dividerTest l
    · rw [stepLine_of_div st l hd] at hit
      simp only at hit
      rcases List.mem_append.mp hit with h1 | h1
      · exact h it h1
      · by_cases h2 : hasData st.cur
        · simp [h2] at h1; rw [h1]; exact h2
        · simp [h2] at h1
    · rw [stepLine_items_of_not_div st l (by simpa using hd)] at hit
      exact h it hit

/-! ## Claim theorems -/

/-- Claim C1: a segmented line-items block holding exactly one item
block (its divider, then a description line carrying Milch 3.5%, a
price line carrying 1,29 followed by the nbsp entity, and a details
line whose cell text begins with four nbsp entities followed by
1 Liter) extracts to exactly the one line item with description
Milch 3.5%, total price 1.29 and details 1 Liter. -/
theorem claim_C1_single_item :
    extractLineItems milkRaw =
      [⟨some "Milch 3.5%", some (mkRat 129 100), some "1 Liter"⟩] := by decide

/-- Claim C2, amended: a line item appears in the output sequence iff
at flush time at least one of its three fields is truthy in the
JavaScript sense: the description or details a non-empty string, or
the total price a non-zero number.  Every emitted item has a truthy
field, a divider flush appends the current item exactly when it has a
truthy field, and the end-of-input flush does the same. -/
theorem claim_C2_flush_truthy :
    (∀ (lines : List (List Char)) (it : LineItem),
        it ∈ extractLineItemsL lines → hasData it = true)
  ∧ (∀ (st : ScanState) (line : List Char), dividerTest line = true →
        (stepLine st line).items =
          st.items ++ (if hasData st.cur then [st.cur] else []))
  ∧ (∀ st : ScanState,
        finishScan st = st.items ++ (if hasData st.cur then [st.cur] else [])) := by
  refine ⟨?_, ?_, ?_⟩
  · intro lines it hit
    unfold extractLineItemsL finishScan at hit
    rcases List.mem_append.mp hit with h1 | h1
    · refine foldl_items_hasData lines initState ?_ it h1
      intro x hx
      simp [initState] at hx
    · by_cases h2 : hasData (List.foldl stepLine initState lines).cur
      · simp only [h2, if_true, List.mem_singleton] at h1
        rw [h1]; exact h2
      · simp [h2] at h1
  · intro st line h
    rw [stepLine_of_div st line h]
  · intro st; rfl

/-- Claim C2 counterexample: after a divider and then a description
line whose captured cell text trims to the empty string, the
in-progress item has a non-null description at end-of-input flush
time, yet no item is emitted, refuting the claim that one non-null
field suffices. -/
theorem claim_C2_cex :
    (List.foldl stepLine initState [sampleDivider, sampleEmptyDesc]).cur.description
      = some ""
  ∧ extractLineItemsL [sampleDivider, sampleEmptyDesc] = [] := by decide

/-- Claim C2 witness: a concrete emitted item satisfies the truthiness
invariant. -/
theorem claim_C2_witness : hasData ⟨some "Milch 3.5%", none, none⟩ = true :=
  claim_C2_flush_truthy.1 [sampleDivider, sampleDesc]
    ⟨some "Milch 3.5%", none, none⟩ (by decide)

/-- Claim C4: a filtered line sequence with N divider lines produces
at most N+1 items, and the output is exactly the flush sequence: each
step either leaves the emitted list unchanged or appends the current
item at its end, so output order is input line order with no sorting
and no deduplication. -/
theorem claim_C4_count_order :
    (∀ lines : List (List Char),
        (extractLineItemsL lines).length ≤ lines.countP dividerTest + 1)
  ∧ (∀ (st : ScanState) (l : List Char),
        (stepLine st l).items = st.items ∨
          (stepLine st l).items = st.items ++ [st.cur]) := by
  constructor
  · intro lines
    unfold extractLineItemsL finishScan
    have h : ((List.foldl stepLine initState lines).items).length ≤
        0 + lines.countP dividerTest := foldl_items_length lines initState
    by_cases h2 : hasData (List.foldl stepLine initState lines).cur <;>
      (simp [h2]; omega)
  · exact stepLine_items_cases

/-- Claim C5, amended: an in-progress item whose description is set to
a non-empty string while price and details are null is still emitted,
both at the next divider line and at end of input. -/
theorem claim_C5_partial_flush (st : ScanState) (line : List Char) (d : String)
    (hcur : st.cur = ⟨some d, none, none⟩) (hd : d ≠ "") :
    (dividerTest line = true → (stepLine st line).items = st.items ++ [st.cur])
  ∧ finishScan st = st.items ++ [st.cur] := by
  have hdata : hasData st.cur = true := by
    rw [hcur]
    simp [hasData, truthyS, hd]
  constructor
  · intro h
    rw [stepLine_of_div st line h]
    simp [hdata]
  · unfold finishScan
    simp [hdata]

/-- Claim C5 witness: a concrete state holding only a description is
flushed by a concrete divider line and at end of input. -/
theorem claim_C5_witness :
    (stepLine witState sampleDivider).items = [⟨some "Brot", none, none⟩]
  ∧ finishScan witState = [⟨some "Brot", none, none⟩] := by
  have h := claim_C5_partial_flush witState sampleDivider "Brot" rfl (by decide)
  exact ⟨h.1 (by decide), h.2⟩

/-- Claim C5 counterexample: an in-progress item whose only set field
is the description holding the empty string is dropped both by the
divider flush and by the end flush, refuting the claim as stated for
a merely non-null description. -/
theorem claim_C5_cex :
    (List.foldl stepLine initState [sampleDivider, sampleEmptyDesc]).cur
      = ⟨some "", none, none⟩
  ∧ extractLineItemsL [sampleDivider, sampleEmptyDesc, sampleDivider] = [] := by decide

/-- Claim C7: the concrete store-address raw text yields lines 2 and 3
only, with the br marker stripped, trimmed, and joined by
comma-space. -/
theorem claim_C7_address :
    extractStoreAddress
        "\nNetto City-Filiale\n<br>Hauptstr. 123, 12345 Berlin\n<br>extra".data
      = "Netto City-Filiale, Hauptstr. 123, 12345 Berlin" := by decide

/-- Claim C8: with fewer than 3 newline-separated lines the slice
yields fewer than 2 elements and the join degrades: with a single line
the result is the empty string; the extractor is a total function into
strings, so no failure and no null result is possible. -/
theorem claim_C8_short_address (raw : List Char)
    (h : (jsSplit ['\n'] raw).length < 3) :
    (((jsSplit ['\n'] raw).drop 1).take 2).length < 2
  ∧ ((jsSplit ['\n'] raw).length = 1 → extractStoreAddress raw = "") := by
  constructor
  · simp only [List.length_take, List.length_drop]
    omega
  · intro h1
    obtain ⟨a, ha⟩ := List.length_eq_one.mp h1
    unfold extractStoreAddress
    rw [ha]
    rfl

/-- Claim C8 witness at a two-line raw text. -/
theorem claim_C8_witness :
    ((((jsSplit ['\n'] "a\nb".data).drop 1).take 2).length < 2)
  ∧ ((jsSplit ['\n'] "a\nb".data).length = 1 →
      extractStoreAddress "a\nb".data = "") :=
  claim_C8_short_address "a\nb".data (by decide)

/-- Claim C9: filtered lines before the first divider are inert: the
scanner starts with all three search flags false, so a prefix without
divider lines leaves the state at its initial value and the extracted
items are those of the remaining lines alone. -/
theorem claim_C9_idle_before_divider (pre rest : List (List Char))
    (h : ∀ l ∈ pre, dividerTest l = false) :
    List.foldl stepLine initState (pre ++ rest) = List.foldl stepLine initState rest
  ∧ extractLineItemsL (pre ++ rest) = extractLineItemsL rest := by
  have h1 : List.foldl stepLine initState (pre ++ rest)
      = List.foldl stepLine initState rest := by
    rw [List.foldl_append, foldl_init_of_no_div pre h]
  refine ⟨h1, ?_⟩
  unfold extractLineItemsL
  rw [h1]

/-! ## Character and digit lemmas, for the price round-trip claim -/

theorem char_eq_of_toNat_eq {a b : Char} (h : a.toNat = b.toNat) : a = b :=
  Char.eq_of_val_eq (UInt32.eq_of_toBitVec_eq (BitVec.eq_of_toNat_eq h))

theorem charOfNat_toNat (c : Char) : Char.ofNat c.toNat = c := by
  have hv : c.toNat.isValidChar := c.valid
  unfold Char.ofNat
  rw [dif_pos hv]
  exact char_eq_of_toNat_eq rfl

theorem isDigit_bounds {c : Char} (h : c.isDigit = true) :
    48 ≤ c.toNat ∧ c.toNat ≤ 57 := by
  simp [Char.isDigit] at h
  exact h

theorem digitChar_charVal {c : Char} (h : c.isDigit = true) :
    digitChar (charVal c) = c := by
  obtain ⟨h1, h2⟩ := isDigit_bounds h
  unfold digitChar charVal
  have hz : '0'.toNat = 48 := rfl
  have he : '0'.toNat + (c.toNat - '0'.toNat) = c.toNat := by omega
  rw [he, charOfNat_toNat]

theorem charVal_lt_ten {c : Char} (h : c.isDigit = true) : charVal c < 10 := by
  obtain ⟨h1, h2⟩ := isDigit_bounds h
  unfold charVal
  have hz : '0'.toNat = 48 := rfl
  omega

theorem charVal_ne_zero {c : Char} (h : c.isDigit = true) (h0 : c ≠ '0') :
    charVal c ≠ 0 := by
  obtain ⟨h1, _⟩ := isDigit_bounds h
  unfold charVal
  intro hz
  apply h0
  apply char_eq_of_toNat_eq
  have : '0'.toNat = 48 := rfl
  omega

theorem isDigit_not_space {c : Char} (h : c.isDigit = true) :
    isJsSpace c = false := by
  simp only [isJsSpace, Bool.or_eq_false_iff, decide_eq_false_iff_not]
  repeat' apply And.intro
  all_goals (rintro rfl; exact absurd h (by decide))

theorem takeWhile_all (p : Char → Bool) (l : List Char)
    (h : ∀ c ∈ l, p c = true) : l.takeWhile p = l := by
  induction l with
  | nil => rfl
  | cons c cs ih =>
    rw [List.takeWhile_cons, if_pos (h c (List.mem_cons_self c cs))]
    rw [ih (fun x hx => h x (List.mem_cons_of_mem c hx))]

theorem takeWhile_all_append (p : Char → Bool) (ds : List Char) (x : Char)
    (r : List Char) (hds : ∀ c ∈ ds, p c = true) (hx : p x = false) :
    (ds ++ x :: r).takeWhile p = ds ∧ (ds ++ x :: r).dropWhile p = x :: r := by
  induction ds with
  | nil => simp [List.takeWhile_cons, List.dropWhile_cons, hx]
  | cons c ds' ih =>
    have hc : p c = true := hds c (List.mem_cons_self c ds')
    have hrest := ih (fun x hx => hds x (List.mem_cons_of_mem c hx))
    simp only [List.cons_append, List.takeWhile_cons, List.dropWhile_cons, hc,
      if_true, hrest.1, hrest.2]
    trivial

theorem replace_comma_point (ds r : List Char) (h : ',' ∉ ds) :
    jsReplaceFirst [','] ['.'] (ds ++ ',' :: r) = ds ++ '.' :: r := by
  induction ds with
  | nil => simp [jsReplaceFirst, stripPfx]
  | cons c ds' ih =>
    have hc : (',' = c) = False := by
      simp only [eq_iff_iff, iff_false]
      rintro rfl
      exact h (List.mem_cons_self _ _)
    simp only [List.cons_append, jsReplaceFirst, stripPfx, hc, if_false,
      List.append_eq]
    rw [ih (fun hm => h (List.mem_cons_of_mem _ hm))]

theorem dropWhile_head_false (p : Char → Bool) (l : List Char)
    (h : ∀ c, l.head? = some c → p c = false) : l.dropWhile p = l := by
  cases l with
  | nil => rfl
  | cons c cs => rw [List.dropWhile_cons, if_neg (by simp [h c rfl])]

theorem jsTrim_eq_self (l : List Char)
    (hh : ∀ c, l.head? = some c → isJsSpace c = false)
    (hl : ∀ c, l.getLast? = some c → isJsSpace c = false) : jsTrim l = l := by
  unfold jsTrim
  rw [dropWhile_head_false _ _ hh]
  rw [dropWhile_head_false _ _ (fun c hc => hl c (by rwa [List.head?_reverse] at hc))]
  rw [List.reverse_reverse]

theorem digitsVal_aux (ds : List Char) :
    ∀ n : Nat, List.foldl (fun n c => 10 * n + charVal c) n ds
      = n * 10 ^ ds.length + Nat.ofDigits 10 ((ds.map charVal).reverse) := by
  induction ds with
  | nil => intro n; simp [Nat.ofDigits_nil]
  | cons c ds' ih =>
    intro n
    simp only [List.foldl_cons, List.length_cons, List.map_cons, List.reverse_cons]
    rw [ih, Nat.ofDigits_append, Nat.ofDigits_singleton]
    simp only [List.length_reverse, List.length_map]
    ring

theorem digitsVal_eq (ds : List Char) :
    digitsVal ds = Nat.ofDigits 10 ((ds.map charVal).reverse) := by
  unfold digitsVal
  rw [digitsVal_aux]
  simp

theorem natToDigitsRev_eq :
    ∀ fuel n : Nat, n ≤ fuel → natToDigitsRev fuel n = Nat.digits 10 n := by
  intro fuel
  induction fuel with
  | zero =>
    intro n h
    have : n = 0 := Nat.le_zero.mp h
    subst this
    simp [natToDigitsRev]
  | succ f ih =>
    intro n h
    have hstep : natToDigitsRev (f + 1) n
        = if n = 0 then [] else n % 10 :: natToDigitsRev f (n / 10) := rfl
    by_cases h0 : n = 0
    · subst h0; simp [hstep]
    · have hlt : n / 10 ≤ f := by
        have := Nat.div_lt_self (Nat.pos_of_ne_zero h0) (by norm_num : 1 < 10)
        omega
      rw [hstep, if_neg h0, ih _ hlt,
        Nat.digits_def' (by norm_num : 1 < 10) (Nat.pos_of_ne_zero h0)]

theorem natRender_digitsVal (c0 : Char) (ds : List Char)
    (hd : ∀ c ∈ c0 :: ds, c.isDigit = true) (h0 : c0 ≠ '0') :
    natRender (digitsVal (c0 :: ds)) = c0 :: ds := by
  have hval : digitsVal (c0 :: ds)
      = Nat.ofDigits 10 (((c0 :: ds).map charVal).reverse) := digitsVal_eq _
  set L := ((c0 :: ds).map charVal).reverse with hL
  have hLdef : L = (ds.map charVal).reverse ++ [charVal c0] := by
    simp [hL]
  have hlt : ∀ x ∈ L, x < 10 := by
    intro x hx
    rw [hL, List.mem_reverse] at hx
    obtain ⟨c, hc, rfl⟩ := List.mem_map.mp hx
    exact charVal_lt_ten (hd c hc)
  have hlast : ∀ hne : L ≠ [], L.getLast hne ≠ 0 := by
    intro hne
    have hq : L.getLast? = some (charVal c0) := by
      rw [hLdef]
      exact List.getLast?_concat _
    have hq2 : L.getLast? = some (L.getLast hne) := List.getLast?_eq_getLast L hne
    have hg : L.getLast hne = charVal c0 := by
      rw [hq2] at hq
      exact Option.some.inj hq
    rw [hg]
    exact charVal_ne_zero (hd c0 (List.mem_cons_self _ _)) h0
  have hdig : Nat.digits 10 (Nat.ofDigits 10 L) = L :=
    Nat.digits_ofDigits 10 (by norm_num) L hlt hlast
  have hLne : L ≠ [] := by simp [hLdef]
  have hne0 : digitsVal (c0 :: ds) ≠ 0 := by
    intro hzero
    rw [hval] at hzero
    rw [hzero] at hdig
    simp only [Nat.digits_zero] at hdig
    exact hLne hdig.symm
  unfold natRender
  rw [if_neg hne0, natToDigitsRev_eq _ _ le_rfl, hval, hdig, hL]
  rw [List.map_reverse, List.reverse_reverse, List.map_map]
  have hcongr : List.map (digitChar ∘ charVal) (c0 :: ds) = List.map id (c0 :: ds) :=
    List.map_congr_left (fun c hc => by
      simp only [Function.comp_apply, id_eq]
      exact digitChar_charVal (hd c hc))
  rw [hcongr, List.map_id]

theorem jsParseFloat_price (ds : List Char) (d1 d2 : Char)
    (hds : ∀ c ∈ ds, c.isDigit = true) (h1 : d1.isDigit = true)
    (h2 : d2.isDigit = true) :
    jsParseFloat (ds ++ '.' :: [d1, d2])
      = mkRat ((digitsVal ds * 100 + digitsVal [d1, d2] : Nat) : Int) 100 := by
  obtain ⟨ht, hd⟩ := takeWhile_all_append Char.isDigit ds '.' [d1, d2] hds (by decide)
  unfold jsParseFloat
  rw [ht, hd]
  have hfd : List.takeWhile Char.isDigit [d1, d2] = [d1, d2] :=
    takeWhile_all _ _ (by
      intro c hc
      rcases List.mem_cons.mp hc with rfl | hc2
      · exact h1
      · rcases List.mem_cons.mp hc2 with rfl | hc3
        · exact h2
        · exact absurd hc3 (List.not_mem_nil c))
  simp only [hfd, List.length_cons, List.length_nil]
  norm_num

theorem rne_bounds (x : ℚ) : x - 1 / 2 ≤ (rne x : ℚ) ∧ (rne x : ℚ) ≤ x + 1 / 2 := by
  have hf1 : ((⌊x⌋ : ℤ) : ℚ) ≤ x := Int.floor_le x
  have hf2 : x < ⌊x⌋ + 1 := Int.lt_floor_add_one x
  unfold rne
  split_ifs with h1 h2 h3
  · constructor
    · linarith
    · linarith
  · push_cast
    constructor
    · linarith
    · linarith
  · have he : x - ⌊x⌋ = 1 / 2 := le_antisymm (not_lt.mp h2) (not_lt.mp h1)
    constructor
    · linarith
    · linarith
  · have he : x - ⌊x⌋ = 1 / 2 := le_antisymm (not_lt.mp h2) (not_lt.mp h1)
    push_cast
    constructor
    · linarith
    · linarith

theorem fl64_zero : fl64 0 = 0 := by
  unfold fl64
  rw [if_pos rfl]

theorem fl64_bounds {q : ℚ} (hq : 0 < q) :
    q - (2 : ℚ) ^ (Int.log 2 q - 53) ≤ fl64 q
  ∧ fl64 q ≤ q + (2 : ℚ) ^ (Int.log 2 q - 53) := by
  have hne : q ≠ 0 := ne_of_gt hq
  unfold fl64
  rw [if_neg hne]
  set L := Int.log 2 q with hLdef
  set y := q * (2 : ℚ) ^ (52 - L) with hy
  obtain ⟨hb1, hb2⟩ := rne_bounds y
  have hpow : (0 : ℚ) < (2 : ℚ) ^ (L - 52) := zpow_pos (by norm_num) _
  have htwo : (2 : ℚ) ≠ 0 := by norm_num
  have hy_eq : y * (2 : ℚ) ^ (L - 52) = q := by
    rw [hy, mul_assoc, ← zpow_add₀ htwo]
    rw [show 52 - L + (L - 52) = 0 by ring, zpow_zero, mul_one]
  have hhalf : (1 / 2 : ℚ) * (2 : ℚ) ^ (L - 52) = (2 : ℚ) ^ (L - 53) := by
    have h2inv : (1 / 2 : ℚ) = (2 : ℚ) ^ (-1 : ℤ) := by norm_num
    rw [h2inv, ← zpow_add₀ htwo]
    congr 1
    ring
  constructor
  · have := mul_le_mul_of_nonneg_right hb1 hpow.le
    rw [sub_mul, hy_eq, hhalf] at this
    exact this
  · have := mul_le_mul_of_nonneg_right hb2 hpow.le
    rw [add_mul, hy_eq, hhalf] at this
    exact this

theorem round_fl64_cents (n : ℕ) (h : n < 2 ^ 52) :
    round (fl64 (mkRat (n : Int) 100) * 100) = (n : ℤ) := by
  have hq_eq : (mkRat (n : Int) 100 : ℚ) = (n : ℚ) / 100 := by
    rw [Rat.mkRat_eq_divInt, Rat.divInt_eq_div]
    push_cast
    ring
  rw [hq_eq]
  rcases Nat.eq_zero_or_pos n with rfl | hn
  · norm_num [fl64_zero]
  have hq_pos : (0 : ℚ) < (n : ℚ) / 100 := by positivity
  set q : ℚ := (n : ℚ) / 100 with hqdef
  have hn52 : ((n : ℚ)) < ((2 : ℚ)) ^ (52 : ℕ) := by exact_mod_cast h
  have hq46 : q < (2 : ℚ) ^ (46 : ℤ) := by
    rw [show ((2 : ℚ) ^ (46 : ℤ)) = (2 : ℚ) ^ (46 : ℕ) from zpow_natCast 2 46, hqdef,
      div_lt_iff₀ (by norm_num : (0 : ℚ) < 100)]
    have hcmp : ((2 : ℚ)) ^ (52 : ℕ) ≤ (2 : ℚ) ^ (46 : ℕ) * 100 := by norm_num
    linarith
  have hL : Int.log 2 q ≤ 45 := by
    have hq46c : q < ((2 : ℕ) : ℚ) ^ (46 : ℤ) := by
      have hb : ((2 : ℕ) : ℚ) = (2 : ℚ) := by norm_num
      rw [hb]
      exact hq46
    have := (Int.lt_zpow_iff_log_lt (by norm_num : 1 < 2) hq_pos).mp hq46c
    omega
  obtain ⟨hlow, hup⟩ := fl64_bounds hq_pos
  have hmono : (2 : ℚ) ^ (Int.log 2 q - 53) ≤ (2 : ℚ) ^ (-8 : ℤ) :=
    zpow_le_zpow_right₀ (by norm_num) (by omega)
  have h256 : ((2 : ℚ)) ^ (-8 : ℤ) = 1 / 256 := by norm_num
  rw [h256] at hmono
  have hqn : q * 100 = (n : ℚ) := by
    rw [hqdef]
    field_simp
  have hup2 : fl64 q * 100 ≤ (n : ℚ) + 100 / 256 := by
    have := mul_le_mul_of_nonneg_right hup (by norm_num : (0 : ℚ) ≤ 100)
    rw [add_mul, hqn] at this
    linarith [mul_le_mul_of_nonneg_right hmono (by norm_num : (0 : ℚ) ≤ 100)]
  have hlow2 : (n : ℚ) - 100 / 256 ≤ fl64 q * 100 := by
    have := mul_le_mul_of_nonneg_right hlow (by norm_num : (0 : ℚ) ≤ 100)
    rw [sub_mul, hqn] at this
    linarith [mul_le_mul_of_nonneg_right hmono (by norm_num : (0 : ℚ) ≤ 100)]
  rw [round_eq]
  rw [Int.floor_eq_iff]
  constructor
  · push_cast
    linarith
  · push_cast
    linarith

theorem toFixed2_fl64_cents (n : ℕ) (h : n < 2 ^ 52) :
    toFixed2 (fl64 (mkRat (n : Int) 100))
      = natRender (n / 100) ++ '.' ::
          [digitChar (n % 100 / 10), digitChar (n % 100 % 10)] := by
  unfold toFixed2
  rw [round_fl64_cents n h, Int.toNat_natCast]

/-- Claim C6, amended: for a price capture of the form D,DD whose
integer digit sequence has no leading zero (or is the single digit 0)
and whose value in cents is below 2 ^ 52, the source pipeline of trim,
comma-to-point replace, parseFloat to a binary64 double, and
two-decimal reformat reproduces the original digits with a point in
place of the comma.  Below that bound the double sits within a quarter
of a cent of the exact value, so toFixed recovers the cents; for far
longer digit strings binary64 rounding changes the digits and the
round trip fails.  The first conjunct shows that such strings are
exactly what the price pattern captures. -/
theorem claim_C6_price_roundtrip (ds : List Char) (d1 d2 : Char)
    (hds : ∀ c ∈ ds, c.isDigit = true) (hne : ds ≠ [])
    (hcanon : ds.head? = some '0' → ds = ['0'])
    (h1 : d1.isDigit = true) (h2 : d2.isDigit = true)
    (hbound : digitsVal ds * 100 + digitsVal [d1, d2] < 2 ^ 52) :
    priceCapSuf (ds ++ ',' :: d1 :: d2 :: sufPrice) = some (ds ++ ',' :: [d1, d2])
  ∧ toFixed2 (fl64 (jsParseFloat (jsReplaceFirst [','] ['.'] (jsTrim (ds ++ ',' :: [d1, d2])))))
      = ds ++ '.' :: [d1, d2] := by
  cases ds with
  | nil => exact absurd rfl hne
  | cons c0 ds' =>
  constructor
  · obtain ⟨ht, hd⟩ := takeWhile_all_append Char.isDigit (c0 :: ds') ','
      (d1 :: d2 :: sufPrice) hds (by decide)
    unfold priceCapSuf
    rw [ht, hd]
    show (if d1.isDigit && d2.isDigit && hasPfx sufPrice sufPrice then
        some ((c0 :: ds') ++ ',' :: d1 :: d2 :: []) else none) = _
    have hcond : (d1.isDigit && d2.isDigit && hasPfx sufPrice sufPrice) = true := by
      rw [h1, h2]
      decide
    rw [if_pos hcond]
  · have htrim : jsTrim ((c0 :: ds') ++ ',' :: [d1, d2]) = (c0 :: ds') ++ ',' :: [d1, d2] := by
      apply jsTrim_eq_self
      · intro c hc
        simp only [List.cons_append, List.head?_cons, Option.some.injEq] at hc
        subst hc
        exact isDigit_not_space (hds c0 (List.mem_cons_self _ _))
      · intro c hc
        have hshape : (c0 :: ds') ++ ',' :: [d1, d2]
            = ((c0 :: ds') ++ [','] ++ [d1]) ++ [d2] := by simp
        rw [hshape, List.getLast?_concat] at hc
        obtain rfl := Option.some.inj hc.symm
        exact isDigit_not_space h2
    rw [htrim]
    have hnomem : ',' ∉ (c0 :: ds') := fun hm => absurd (hds ',' hm) (by decide)
    rw [replace_comma_point (c0 :: ds') [d1, d2] hnomem]
    rw [jsParseFloat_price (c0 :: ds') d1 d2 hds h1 h2]
    rw [toFixed2_fl64_cents _ hbound]
    have hM : digitsVal [d1, d2] = 10 * charVal d1 + charVal d2 := by
      simp [digitsVal]
      try ring
    have hb1 : charVal d1 < 10 := charVal_lt_ten h1
    have hb2 : charVal d2 < 10 := charVal_lt_ten h2
    have hdiv : (digitsVal (c0 :: ds') * 100 + digitsVal [d1, d2]) / 100
        = digitsVal (c0 :: ds') := by omega
    have hmod : (digitsVal (c0 :: ds') * 100 + digitsVal [d1, d2]) % 100
        = digitsVal [d1, d2] := by omega
    have hd10 : digitsVal [d1, d2] / 10 = charVal d1 := by omega
    have hm10 : digitsVal [d1, d2] % 10 = charVal d2 := by omega
    rw [hdiv, hmod, hd10, hm10, digitChar_charVal h1, digitChar_charVal h2]
    have hrender : natRender (digitsVal (c0 :: ds')) = c0 :: ds' := by
      by_cases hc0 : c0 = '0'
      · subst hc0
        have := hcanon rfl
        obtain rfl : ds' = [] := by
          injection this
        decide
      · exact natRender_digitsVal c0 ds' hds hc0
    rw [hrender]

/-- Claim C6 counterexample: the string 01,23 matches the price
pattern (first conjunct shows the capture on a full price line), but
parsing to a double and reformatting yields 1.23, losing the leading
zero, so the round trip fails for it. -/
theorem claim_C6_cex :
    priceCapture "<td style=\"text-align:right;\">01,23&nbsp;</td>".data
      = some ("01,23".data)
  ∧ toFixed2 (fl64 (jsParseFloat (jsReplaceFirst [','] ['.'] (jsTrim "01,23".data))))
      ≠ "01.23".data := by
  constructor
  · decide
  · have h1 : jsParseFloat (jsReplaceFirst [','] ['.'] (jsTrim "01,23".data))
        = mkRat ((123 : Nat) : Int) 100 := by decide
    rw [h1, toFixed2_fl64_cents 123 (by decide)]
    decide

/-- Claim C6 witness: the round trip at the concrete capture 1,29. -/
theorem claim_C6_witness :
    priceCapSuf (['1'] ++ ',' :: '2' :: '9' :: sufPrice) = some (['1'] ++ ',' :: ['2', '9'])
  ∧ toFixed2 (fl64 (jsParseFloat (jsReplaceFirst [','] ['.'] (jsTrim (['1'] ++ ',' :: ['2', '9'])))))
      = ['1'] ++ '.' :: ['2', '9'] :=
  claim_C6_price_roundtrip ['1'] '2' '9' (by decide) (by decide) (by decide)
    (by decide) (by decide) (by decide)

/-! ## Lemmas about jsSplit, for the segmenter claims -/

theorem jsSplitF_ne_nil (sep : List Char) :
    ∀ (fuel : Nat) (acc l : List Char), jsSplitF sep fuel acc l ≠ [] := by
  intro fuel
  induction fuel with
  | zero => intro acc l; cases l <;> simp [jsSplitF]
  | succ n ih =>
    intro acc l
    cases l with
    | nil => simp [jsSplitF]
    | cons c cs =>
      by_cases h : hasPfx sep (c :: cs)
      · simp [jsSplitF, h]
      · simp only [jsSplitF, h, Bool.false_eq_true, if_false]
        exact ih _ _

theorem jsSplitF_two_iff (s0 : Char) (sr : List Char) :
    ∀ (fuel : Nat) (l acc : List Char), l.length ≤ fuel →
      (2 ≤ (jsSplitF (s0 :: sr) fuel acc l).length ↔ occursB (s0 :: sr) l = true) := by
  intro fuel
  induction fuel with
  | zero =>
    intro l acc h
    have hl : l = [] := List.length_eq_zero.mp (Nat.le_zero.mp h)
    subst hl
    simp [jsSplitF, occursB, hasPfx, stripPfx]
  | succ n ih =>
    intro l acc h
    cases l with
    | nil => simp [jsSplitF, occursB, hasPfx, stripPfx]
    | cons c cs =>
      by_cases hp : hasPfx (s0 :: sr) (c :: cs)
      · have hlen := List.length_pos.mpr
          (jsSplitF_ne_nil (s0 :: sr) n [] ((c :: cs).drop (s0 :: sr).length))
        have hstep : jsSplitF (s0 :: sr) (n + 1) acc (c :: cs)
            = if hasPfx (s0 :: sr) (c :: cs) then
                acc.reverse :: jsSplitF (s0 :: sr) n [] ((c :: cs).drop (s0 :: sr).length)
              else jsSplitF (s0 :: sr) n (c :: acc) cs := rfl
        constructor
        · intro _
          simp [occursB, hp]
        · intro _
          rw [hstep, if_pos hp, List.length_cons]
          omega
      · have hcs : cs.length ≤ n := by
          simp only [List.length_cons] at h
          omega
        simp only [jsSplitF, hp, Bool.false_eq_true, if_false, occursB,
          Bool.false_or]
        exact ih cs (c :: acc) hcs

theorem jsSplitF_single (s0 : Char) (sr : List Char) :
    ∀ (fuel : Nat) (l acc : List Char), l.length ≤ fuel →
      occursB (s0 :: sr) l = false →
      jsSplitF (s0 :: sr) fuel acc l = [acc.reverse ++ l] := by
  intro fuel
  induction fuel with
  | zero =>
    intro l acc h _
    have hl : l = [] := List.length_eq_zero.mp (Nat.le_zero.mp h)
    subst hl
    simp [jsSplitF]
  | succ n ih =>
    intro l acc h hocc
    cases l with
    | nil => simp [jsSplitF]
    | cons c cs =>
      have hp : hasPfx (s0 :: sr) (c :: cs) = false := by
        unfold occursB at hocc
        exact (Bool.or_eq_false_iff.mp hocc).1
      have hrest : occursB (s0 :: sr) cs = false := by
        unfold occursB at hocc
        exact (Bool.or_eq_false_iff.mp hocc).2
      have hcs : cs.length ≤ n := by
        simp only [List.length_cons] at h
        omega
      simp only [jsSplitF, hp, Bool.false_eq_true, if_false]
      rw [ih cs (c :: acc) hcs hrest]
      simp

theorem jsSplit_two_iff (sep l : List Char) (h : sep ≠ []) :
    2 ≤ (jsSplit sep l).length ↔ occursB sep l = true := by
  cases sep with
  | nil => exact absurd rfl h
  | cons s0 sr => exact jsSplitF_two_iff s0 sr l.length l [] le_rfl

theorem jsSplit_single (sep l : List Char) (h : occursB sep l = false) :
    jsSplit sep l = [l] := by
  cases sep with
  | nil => rfl
  | cons s0 sr =>
    have := jsSplitF_single s0 sr l.length l [] le_rfl h
    simpa [jsSplit] using this

/-- Claim C3, amended: absence of the start marker makes the segmenter
fail (the undefined split segment of the source); absence of the
middle marker within the span leaves the second raw segment missing,
so its later use fails; absence of the end marker causes no error at
all: the span silently extends to the end of the remainder.  When the
start marker occurs and the middle marker occurs in the span, the
segmenter returns both raw substrings without error. -/
theorem claim_C3_segmenter_errors :
    (∀ (body s m e : List Char), s ≠ [] →
        ((extractStoreAndPurchaseString body s m e).isSome ↔ occursB s body = true))
  ∧ (∀ (body s m e r : List Char), m ≠ [] → segRemainder body s = some r →
        ((∃ a b, extractStoreAndPurchaseString body s m e = some (a, some b)) ↔
          occursB m (segSpan r e) = true))
  ∧ (∀ (body s e r : List Char), segRemainder body s = some r →
        occursB e r = false → segSpan r e = r) := by
  have key : ∀ (body s : List Char), s ≠ [] →
      ((segRemainder body s).isSome ↔ occursB s body = true) := by
    intro body s hs
    unfold segRemainder
    rw [Option.isSome_iff_ne_none, Ne, List.get?_eq_none, not_le]
    exact jsSplit_two_iff s body hs
  refine ⟨?_, ?_, ?_⟩
  · intro body s m e hs
    have k := key body s hs
    unfold extractStoreAndPurchaseString
    cases h : segRemainder body s with
    | none => rw [h] at k; simpa using k
    | some r => rw [h] at k; simpa using k
  · intro body s m e r hm hr
    have k : (((jsSplit m (segSpan r e)).get? 1).isSome) ↔
        occursB m (segSpan r e) = true := by
      rw [Option.isSome_iff_ne_none, Ne, List.get?_eq_none, not_le]
      exact jsSplit_two_iff m (segSpan r e) hm
    have hrepr : extractStoreAndPurchaseString body s m e =
        some ((jsSplit m (segSpan r e)).headI, (jsSplit m (segSpan r e)).get? 1) := by
      unfold extractStoreAndPurchaseString
      rw [hr]
      rfl
    rw [hrepr]
    constructor
    · rintro ⟨a, b, hab⟩
      simp only [Option.some.injEq, Prod.mk.injEq] at hab
      apply k.mp
      rw [hab.2]
      rfl
    · intro hocc
      obtain ⟨b, hb⟩ := Option.isSome_iff_exists.mp (k.mpr hocc)
      exact ⟨(jsSplit m (segSpan r e)).headI, b, by rw [hb]⟩
  · intro body s e r _ he
    unfold segSpan
    rw [jsSplit_single e r he]
    rfl

/-- Claim C3 counterexample: a body holding the start and middle
markers but no end marker is segmented without any failure, refuting
the claim that a missing end marker raises the malformed-document
condition. -/
theorem claim_C3_cex :
    extractStoreAndPurchaseString "uFiliale:a<!-- WARENKORB -->b".data
        "Filiale:".data "<!-- WARENKORB -->".data "<!-- SUMME -->".data
      = some ("a".data, some ("b".data))
  ∧ occursB "<!-- SUMME -->".data "uFiliale:a<!-- WARENKORB -->b".data = false := by
  decide

/-- Claim C3 witness: concrete bodies exercising the three amended
clauses. -/
theorem claim_C3_witness :
    (extractStoreAndPurchaseString "xSaMbEq".data "S".data "M".data "E".data).isSome
  ∧ (∃ a b, extractStoreAndPurchaseString "xSaMbEq".data "S".data "M".data "E".data
        = some (a, some b))
  ∧ segSpan "aMb".data "E".data = "aMb".data := by
  obtain ⟨h1, h2, h3⟩ := claim_C3_segmenter_errors
  exact ⟨(h1 "xSaMbEq".data "S".data "M".data "E".data (by decide)).mpr (by decide),
    (h2 "xSaMbEq".data "S".data "M".data "E".data "aMbEq".data (by decide)
      (by decide)).mpr (by decide),
    h3 "xSaMb".data "S".data "E".data "aMb".data (by decide) (by decide)⟩

/-- Claim C9 witness: a description line before any divider
contributes nothing. -/
theorem claim_C9_witness :
    List.foldl stepLine initState ([sampleDesc] ++ []) = List.foldl stepLine initState []
  ∧ extractLineItemsL ([sampleDesc] ++ []) = extractLineItemsL [] :=
  claim_C9_idle_before_divider [sampleDesc] [] (by decide)

/-! ## Engine lemmas, for the details-versus-description claim -/

theorem stripPfx_append (p s : List Char) : stripPfx p (p ++ s) = some s := by
  induction p with
  | nil => rfl
  | cons p0 ps ih => simp [stripPfx, ih]

theorem stripPfx_eq_some_iff {p : List Char} :
    ∀ {s r : List Char}, stripPfx p s = some r ↔ s = p ++ r := by
  induction p with
  | nil =>
    intro s r
    simp only [stripPfx, Option.some.injEq, List.nil_append]
  | cons p0 ps ih =>
    intro s r
    cases s with
    | nil => simp [stripPfx]
    | cons c cs =>
      by_cases hc : p0 = c
      · subst hc
        simp only [stripPfx, if_pos rfl, List.cons_append, List.cons.injEq,
          true_and]
        exact ih
      · simp only [stripPfx, if_neg hc, List.cons_append]
        constructor
        · intro h; exact absurd h (by simp)
        · intro h; exact absurd (List.head_eq_of_cons_eq h).symm hc

theorem sfx_cons (c : Char) (cs : List Char) :
    sfx (c :: cs) = (c :: cs) :: sfx cs := rfl

theorem self_mem_sfx (s : List Char) : s ∈ sfx s := by
  cases s <;> simp [sfx]

theorem length_le_of_mem_sfx : ∀ {s s' : List Char}, s' ∈ sfx s → s'.length ≤ s.length := by
  intro s
  induction s with
  | nil => intro s' h; simp [sfx] at h; simp [h]
  | cons c cs ih =>
    intro s' h
    rw [sfx_cons] at h
    rcases List.mem_cons.mp h with rfl | h2
    · exact le_rfl
    · exact (ih h2).trans (by simp)

theorem orElse_isSome {α : Type} (o : Option α) (f : Unit → Option α) :
    (o.orElse f).isSome = (o.isSome || (f ()).isSome) := by
  cases o <;> rfl

theorem greedy_none {α : Type} (p : Char → Bool) (cont : List Char → Option α) :
    ∀ s, (∀ s' ∈ sfx s, cont s' = none) → greedyScan p cont s = none := by
  intro s
  induction s with
  | nil => intro h; exact h [] (self_mem_sfx [])
  | cons c cs ih =>
    intro h
    show (if p c then (greedyScan p cont cs).orElse (fun _ => cont (c :: cs))
      else cont (c :: cs)) = none
    have hself : cont (c :: cs) = none := h (c :: cs) (self_mem_sfx _)
    by_cases hp : p c
    · rw [if_pos hp,
        ih (fun s' hs' => h s' (by rw [sfx_cons]; exact List.mem_cons_of_mem _ hs')),
        hself]
      rfl
    · rw [if_neg hp]; exact hself

theorem greedy_exact {α : Type} (p : Char → Bool) (cont : List Char → Option α) :
    ∀ (s : List Char) (x : α),
      (∀ s' ∈ sfx s, s' ≠ s → cont s' = none) → (∀ c ∈ s, p c = true) →
      cont s = some x → greedyScan p cont s = some x := by
  intro s
  induction s with
  | nil => intro x _ _ hc; exact hc
  | cons c cs ih =>
    intro x h hp hc
    have hpc : p c = true := hp c (List.mem_cons_self _ _)
    show (if p c then (greedyScan p cont cs).orElse (fun _ => cont (c :: cs))
      else cont (c :: cs)) = some x
    rw [if_pos hpc]
    have hnone : greedyScan p cont cs = none := by
      apply greedy_none
      intro s' hs'
      have hlen := length_le_of_mem_sfx hs'
      refine h s' (by rw [sfx_cons]; exact List.mem_cons_of_mem _ hs') ?_
      intro he
      rw [he] at hlen
      simp at hlen
    rw [hnone]
    exact hc

theorem greedy_find {α : Type} (p : Char → Bool) (cont : List Char → Option α)
    (a : List Char) {s : List Char} {x : α}
    (ha : ∀ c ∈ a, p c = true) (hs : ∀ c ∈ s, p c = true)
    (hfail : ∀ s' ∈ sfx s, s' ≠ s → cont s' = none) (hc : cont s = some x) :
    greedyScan p cont (a ++ s) = some x := by
  induction a with
  | nil => exact greedy_exact p cont s x hfail hs hc
  | cons c a' ih =>
    have hpc : p c = true := ha c (List.mem_cons_self _ _)
    show (if p c then (greedyScan p cont (a' ++ s)).orElse (fun _ => cont (c :: (a' ++ s)))
      else cont (c :: (a' ++ s))) = some x
    rw [if_pos hpc, ih (fun c hcm => ha c (List.mem_cons_of_mem _ hcm))]
    rfl

theorem greedy_mono {α β : Type} (p : Char → Bool) (f : List Char → Option α)
    (g : List Char → Option β) (h : ∀ u, (f u).isSome → (g u).isSome) :
    ∀ t, (greedyScan p f t).isSome → (greedyScan p g t).isSome := by
  intro t
  induction t with
  | nil => exact h []
  | cons c cs ih =>
    intro hsome
    show (if p c then (greedyScan p g cs).orElse (fun _ => g (c :: cs))
      else g (c :: cs)).isSome = true
    rw [show greedyScan p f (c :: cs)
      = if p c then (greedyScan p f cs).orElse (fun _ => f (c :: cs))
        else f (c :: cs) from rfl] at hsome
    by_cases hp : p c
    · rw [if_pos hp] at hsome ⊢
      rw [orElse_isSome] at hsome ⊢
      rcases Bool.or_eq_true_iff.mp hsome with h1 | h1
      · rw [ih h1]; rfl
      · rw [h _ h1]; simp
    · rw [if_neg hp] at hsome ⊢
      exact h _ hsome

theorem firstMatch_mono {α β : Type} (f : List Char → Option α)
    (g : List Char → Option β) (h : ∀ u, (f u).isSome → (g u).isSome) :
    ∀ line, (firstMatch f line).isSome → (firstMatch g line).isSome := by
  intro line
  induction line with
  | nil => exact h []
  | cons c cs ih =>
    intro hsome
    show ((g (c :: cs)).orElse (fun _ => firstMatch g cs)).isSome = true
    rw [show firstMatch f (c :: cs)
      = (f (c :: cs)).orElse (fun _ => firstMatch f cs) from rfl] at hsome
    rw [orElse_isSome] at hsome ⊢
    rcases Bool.or_eq_true_iff.mp hsome with h1 | h1
    · rw [h _ h1]; rfl
    · rw [ih h1]; simp

theorem firstMatch_head {α : Type} (f : List Char → Option α) (line : List Char)
    (x : α) (hx : f line = some x) : firstMatch f line = some x := by
  cases line with
  | nil => exact hx
  | cons c cs =>
    show (f (c :: cs)).orElse (fun _ => firstMatch f cs) = some x
    rw [hx]
    rfl

theorem afterMid_bind {α : Type} (mid : List Char) (k : List Char → Option α)
    (u : List Char) : afterMid mid k u = (stripPfx mid u).bind k := by
  cases h : stripPfx mid u <;> simp [afterMid, h]

theorem matchPlusAt_none {α : Type} (pre : List Char) (k : List Char → Option α)
    {s : List Char} (hp : stripPfx pre s = none) : matchPlusAt pre k s = none := by
  unfold matchPlusAt
  rw [hp]

theorem matchPlusAt_some_nil {α : Type} (pre : List Char) (k : List Char → Option α)
    {s : List Char} (hp : stripPfx pre s = some []) : matchPlusAt pre k s = none := by
  unfold matchPlusAt
  rw [hp]

theorem matchPlusAt_some_cons {α : Type} (pre : List Char) (k : List Char → Option α)
    {s cs : List Char} {c : Char} (hp : stripPfx pre s = some (c :: cs)) :
    matchPlusAt pre k s = if isDot c then greedyScan isDot k cs else none := by
  unfold matchPlusAt
  rw [hp]

theorem hasPfx_cons_ne {p0 c : Char} (pr cs : List Char) (h : p0 ≠ c) :
    hasPfx (p0 :: pr) (c :: cs) = false := by
  simp [hasPfx, stripPfx, h]

theorem sufTd_ne_pfx {c : Char} (cs : List Char) (h : c ≠ '<') :
    hasPfx sufTd (c :: cs) = false := by
  have he : sufTd = '<' :: "/td>".data := by decide
  rw [he]
  exact hasPfx_cons_ne _ _ (fun h2 => h h2.symm)

theorem lazyCapStar_exact (w : List Char) (hlt : '<' ∉ w)
    (hdot : ∀ c ∈ w, isDot c = true) :
    lazyCapStar sufTd (w ++ sufTd) = some w := by
  induction w with
  | nil => decide
  | cons c w' ih =>
    have hc : c ≠ '<' := by
      intro he
      subst he
      exact hlt (List.mem_cons_self _ _)
    show (if hasPfx sufTd (c :: (w' ++ sufTd)) then some []
      else if isDot c then (lazyCapStar sufTd (w' ++ sufTd)).map (fun l => c :: l)
      else none) = some (c :: w')
    rw [sufTd_ne_pfx _ hc]
    simp only [Bool.false_eq_true, if_false]
    rw [if_pos (hdot c (List.mem_cons_self _ _))]
    rw [ih (fun hm => hlt (List.mem_cons_of_mem _ hm))
        (fun x hx => hdot x (List.mem_cons_of_mem _ hx))]
    rfl

theorem lazyCapStar_extend (suf : List Char) {v d : List Char}
    (hd : lazyCapStar suf v = some d) :
    ∀ w, (∀ c ∈ w, isDot c = true) → (lazyCapStar suf (w ++ v)).isSome = true := by
  intro w
  induction w with
  | nil =>
    intro _
    rw [List.nil_append, hd]
    rfl
  | cons c w' ih =>
    intro h
    show (if hasPfx suf (c :: (w' ++ v)) then some []
      else if isDot c then (lazyCapStar suf (w' ++ v)).map (fun l => c :: l)
      else none).isSome = true
    by_cases hp : hasPfx suf (c :: (w' ++ v))
    · rw [if_pos hp]; rfl
    · rw [if_neg hp, if_pos (h c (List.mem_cons_self _ _))]
      obtain ⟨y, hy⟩ := Option.isSome_iff_exists.mp
        (ih (fun x hx => h x (List.mem_cons_of_mem _ hx)))
      rw [hy]
      rfl

theorem midDetails_eq : midDetails = '>' :: nbsp4 := by decide

theorem nbsp4_eq : nbsp4 = '&' :: nbspTail := by decide

theorem contI_none_on (w : List Char) (h : '>' ∉ w) :
    ∀ s' ∈ sfx (w ++ sufTd), afterMid ['>'] (lazyCapPlus sufTd) s' = none := by
  induction w with
  | nil =>
    rw [List.nil_append]
    decide
  | cons c w' ih =>
    intro s' hs'
    rw [List.cons_append, sfx_cons] at hs'
    rcases List.mem_cons.mp hs' with rfl | hmem
    · have hc : ('>' = c) = False := by
        simp only [eq_iff_iff, iff_false]
        intro he
        subst he
        exact h (List.mem_cons_self _ _)
      rw [afterMid_bind]
      simp only [stripPfx, hc, if_false, Option.bind]
    · exact ih (fun hm => h (List.mem_cons_of_mem _ hm)) s' hmem

theorem contD_none_on (w : List Char) (h : '>' ∉ w) :
    ∀ s' ∈ sfx (w ++ sufTd), afterMid midDetails (lazyCapStar sufTd) s' = none := by
  induction w with
  | nil =>
    rw [List.nil_append]
    decide
  | cons c w' ih =>
    intro s' hs'
    rw [List.cons_append, sfx_cons] at hs'
    rcases List.mem_cons.mp hs' with rfl | hmem
    · have hc : ('>' = c) = False := by
        simp only [eq_iff_iff, iff_false]
        intro he
        subst he
        exact h (List.mem_cons_self _ _)
      rw [afterMid_bind, midDetails_eq]
      simp only [stripPfx, hc, if_false, Option.bind]
    · exact ih (fun hm => h (List.mem_cons_of_mem _ hm)) s' hmem

theorem contD_to_contI (u : List Char)
    (h : (afterMid midDetails (lazyCapStar sufTd) u).isSome = true) :
    (afterMid ['>'] (lazyCapPlus sufTd) u).isSome = true := by
  rw [afterMid_bind] at h ⊢
  cases hm : stripPfx midDetails u with
  | none => rw [hm] at h; simp at h
  | some v =>
    rw [hm] at h
    simp only [Option.some_bind] at h
    obtain ⟨dcap, hdc⟩ := Option.isSome_iff_exists.mp h
    have hu : u = midDetails ++ v := stripPfx_eq_some_iff.mp hm
    subst hu
    have hstrip : stripPfx ['>'] (midDetails ++ v) = some (nbsp4 ++ v) := by
      rw [midDetails_eq, List.cons_append]
      simp [stripPfx]
    rw [hstrip]
    simp only [Option.some_bind]
    rw [nbsp4_eq, List.cons_append]
    show (if isDot '&' then (lazyCapStar sufTd (nbspTail ++ v)).map (fun l => '&' :: l)
      else none).isSome = true
    rw [if_pos (by decide)]
    obtain ⟨y, hy⟩ := Option.isSome_iff_exists.mp
      (lazyCapStar_extend sufTd hdc nbspTail (by decide))
    rw [hy]
    rfl

theorem matchPlusAt_mono {α β : Type} (pre : List Char) (f : List Char → Option α)
    (g : List Char → Option β) (h : ∀ u, (f u).isSome = true → (g u).isSome = true)
    (s : List Char) :
    (matchPlusAt pre f s).isSome = true → (matchPlusAt pre g s).isSome = true := by
  intro hsome
  cases hp : stripPfx pre s with
  | none => rw [matchPlusAt_none pre f hp] at hsome; simp at hsome
  | some t =>
    cases t with
    | nil => rw [matchPlusAt_some_nil pre f hp] at hsome; simp at hsome
    | cons c cs =>
      rw [matchPlusAt_some_cons pre f hp] at hsome
      rw [matchPlusAt_some_cons pre g hp]
      by_cases hd : isDot c
      · rw [if_pos hd] at hsome ⊢
        exact greedy_mono isDot f g h cs hsome
      · rw [if_neg hd] at hsome
        simp at hsome

/-- Claim C10, amended: every line matching the details pattern also
matches the description pattern, so in the description-search state a
details-formatted line is consumed as the description, the scanner
advances to the price-search state, and the details field is left
unchanged (null).  For details lines of the exact shape
 td style="font-size: S  then the four nbsp entities then T then the
closing td, where S is nonempty and T holds no angle bracket, the
captured description is the four entities followed by T, so the
leading entities are retained; when T itself holds a greater sign the
greedy backtracking can capture less (see the counterexample). -/
theorem claim_C10_details_lines :
    (∀ line d : List Char, detailsCapture line = some d →
        ∃ c, itemCapture line = some c)
  ∧ (∀ (st : ScanState) (line d : List Char),
        st.searchItem = true → dividerTest line = false →
        detailsCapture line = some d →
        ∃ c, itemCapture line = some c ∧
          stepLine st line =
            { st with cur := { st.cur with description := some (String.mk (jsTrim c)) },
                      searchItem := false, searchPrice := true })
  ∧ (∀ g d : List Char, g ≠ [] → (∀ c ∈ g, isDot c = true) →
        (∀ c ∈ d, isDot c = true) → '>' ∉ d → '<' ∉ d →
        itemCapture (preItem ++ g ++ midDetails ++ d ++ sufTd) = some (nbsp4 ++ d)
      ∧ detailsCapture (preItem ++ g ++ midDetails ++ d ++ sufTd) = some d) := by
  have hA : ∀ line d : List Char, detailsCapture line = some d →
      ∃ c, itemCapture line = some c := by
    intro line d hd
    have h1 : (detailsCapture line).isSome = true := by rw [hd]; rfl
    have h2 : (itemCapture line).isSome = true := by
      unfold detailsCapture at h1
      unfold itemCapture
      exact firstMatch_mono _ _
        (fun u => matchPlusAt_mono preItem _ _ contD_to_contI u) line h1
    exact Option.isSome_iff_exists.mp h2
  refine ⟨hA, ?_, ?_⟩
  · intro st line d hsi hdiv hdet
    obtain ⟨c, hc⟩ := hA line d hdet
    refine ⟨c, hc, ?_⟩
    unfold stepLine
    simp only [hdiv, Bool.false_eq_true, if_false]
    rw [if_pos hsi, hc]
  · intro g d hg hgdot hdot hgt hlt
    obtain ⟨c1, g', rfl⟩ := List.exists_cons_of_ne_nil hg
    have hline : preItem ++ (c1 :: g') ++ midDetails ++ d ++ sufTd
        = preItem ++ (c1 :: (g' ++ ('>' :: (nbsp4 ++ (d ++ sufTd))))) := by
      rw [midDetails_eq]
      simp [List.append_assoc]
    have hsdots : ∀ c ∈ '>' :: (nbsp4 ++ (d ++ sufTd)), isDot c = true := by
      intro c hc
      rcases List.mem_cons.mp hc with rfl | hc2
      · decide
      rcases List.mem_append.mp hc2 with h4 | hc3
      · exact (by decide : ∀ x ∈ nbsp4, isDot x = true) c h4
      rcases List.mem_append.mp hc3 with hdm | hsm
      · exact hdot c hdm
      · exact (by decide : ∀ x ∈ sufTd, isDot x = true) c hsm
    have hnogt : '>' ∉ nbsp4 ++ d := by
      intro hm
      rcases List.mem_append.mp hm with h4 | hdm
      · exact absurd h4 (by decide)
      · exact hgt hdm
    have hassoc : nbsp4 ++ (d ++ sufTd) = (nbsp4 ++ d) ++ sufTd :=
      (List.append_assoc _ _ _).symm
    constructor
    · rw [hline]
      unfold itemCapture
      apply firstMatch_head
      rw [matchPlusAt_some_cons preItem _ (stripPfx_append preItem _)]
      rw [if_pos (hgdot c1 (List.mem_cons_self _ _))]
      apply greedy_find isDot _ g'
        (fun c hc => hgdot c (List.mem_cons_of_mem _ hc)) hsdots
      · intro s' hs' hne
        rw [sfx_cons] at hs'
        rcases List.mem_cons.mp hs' with rfl | hmem
        · exact absurd rfl hne
        · rw [hassoc] at hmem
          exact contI_none_on (nbsp4 ++ d) hnogt s' hmem
      · rw [afterMid_bind]
        rw [show stripPfx ['>'] ('>' :: (nbsp4 ++ (d ++ sufTd)))
            = some (nbsp4 ++ (d ++ sufTd)) from by simp [stripPfx]]
        simp only [Option.some_bind]
        rw [nbsp4_eq, List.cons_append]
        show (if isDot '&' then
            (lazyCapStar sufTd (nbspTail ++ (d ++ sufTd))).map (fun l => '&' :: l)
          else none) = some ('&' :: (nbspTail ++ d))
        rw [if_pos (by decide)]
        rw [show nbspTail ++ (d ++ sufTd) = (nbspTail ++ d) ++ sufTd from
          (List.append_assoc _ _ _).symm]
        rw [lazyCapStar_exact (nbspTail ++ d)
          (by
            intro hm
            rcases List.mem_append.mp hm with h4 | hdm
            · exact absurd h4 (by decide)
            · exact hlt hdm)
          (by
            intro x hx
            rcases List.mem_append.mp hx with h4 | hdm
            · exact (by decide : ∀ x ∈ nbspTail, isDot x = true) x h4
            · exact hdot x hdm)]
        rfl
    · rw [hline]
      unfold detailsCapture
      apply firstMatch_head
      rw [matchPlusAt_some_cons preItem _ (stripPfx_append preItem _)]
      rw [if_pos (hgdot c1 (List.mem_cons_self _ _))]
      apply greedy_find isDot _ g'
        (fun c hc => hgdot c (List.mem_cons_of_mem _ hc)) hsdots
      · intro s' hs' hne
        rw [sfx_cons] at hs'
        rcases List.mem_cons.mp hs' with rfl | hmem
        · exact absurd rfl hne
        · rw [hassoc] at hmem
          exact contD_none_on (nbsp4 ++ d) hnogt s' hmem
      · rw [afterMid_bind]
        rw [show stripPfx midDetails ('>' :: (nbsp4 ++ (d ++ sufTd)))
            = some (d ++ sufTd) from by
          rw [midDetails_eq]
          show (if '>' = '>' then stripPfx nbsp4 (nbsp4 ++ (d ++ sufTd)) else none)
            = some (d ++ sufTd)
          rw [if_pos rfl, stripPfx_append]]
        simp only [Option.some_bind]
        exact lazyCapStar_exact d hlt hdot

/-- Claim C10 counterexample: on a details line whose cell text holds
a greater sign, the description capture is only the text after that
sign, not the four nbsp entities and the full text: the claim that the
captured text always retains the leading entities is false. -/
theorem claim_C10_cex :
    detailsCapture sampleGtDetails = some ("a>b".data)
  ∧ itemCapture sampleGtDetails = some ("b".data)
  ∧ "b".data ≠ nbsp4 ++ "a>b".data := by
  decide

/-- Claim C10 witness: the implication at the concrete details line of
the receipts, and the entity-retaining capture at its exact shape. -/
theorem claim_C10_witness :
    (∃ c, itemCapture sampleDetails = some c)
  ∧ itemCapture (preItem ++ "10px;\"".data ++ midDetails ++ "1 Liter".data ++ sufTd)
      = some (nbsp4 ++ "1 Liter".data) := by
  obtain ⟨h1, _, h3⟩ := claim_C10_details_lines
  exact ⟨h1 sampleDetails "1 Liter".data (by decide),
    (h3 "10px;\"".data "1 Liter".data (by decide) (by decide) (by decide)
      (by decide) (by decide)).1⟩

end Netto
